import Mathlib

/-!
Verification of the chloroplast-genome core of `zcitools`.

The definitions below are a shallow embedding of the Python source:
  * `src/zci_bio/chloroplast/utils.py` (`find_chloroplast_irs`,
    `find_chloroplast_partition`),
  * `src/zci_bio/chloroplast/analyse_step_1.py` (`seq_offset`,
    `chloroplast_parts_orientation`),
  * `src/zci_bio/chloroplast/analyse_step_3.py` (`_run_align`,
    `_get_the_best_ir`, `_get_the_best_irs`, `_get_nice_irs`,
    `_get_2_1_irs`, `_get_1_2_irs`).
Python integers are arbitrary precision, so they are embedded as `Nat`/`Int`
directly.  Classes `Feature`/`Partition` (module `zci_bio.utils.features`)
and `MummerDelta` (module `zci_bio.utils.mummer`) are not part of the given
sources; the pieces of their behaviour the claims depend on are modelled from
the specification and are marked as such in their doc comments.
-/

namespace ZCI

/-! ## Definitions -/

/-- Embedding of `seq_offset(seq_length, offset)` from
`src/zci_bio/chloroplast/analyse_step_1.py`:
`o2 = offset - seq_length; return offset if offset <= abs(o2) else o2`. -/
def seq_offset (seq_length offset : Int) : Int :=
  let o2 := offset - seq_length
  if offset ≤ |o2| then offset else o2

/-- Modelled from the spec: membership of position `p` in the circular arc of
the coordinate space of length `L` that starts at `s` and covers `l`
consecutive positions (mod `L`); part of the `Feature`/`Partition` model
(`zci_bio/utils/features.py` is not among the given sources, the spec's data
model says "circular topology (position arithmetic is mod `L`)").  `p` is in
the arc iff the circular distance from `s` to `p` is below `l`. -/
def inArcB (L s l p : Nat) : Bool := (p + L - s) % L < l

/-- Circular distance from `s` to `p` on a circle of length `L`. -/
def dm (L s p : Nat) : Nat := (p + L - s) % L

/-- A feature of a sequence record: type string, first value of the
`rpt_type` qualifier (when the qualifier is present), location start, and
feature length (`len(f)`). -/
structure SeqFeature where
  ftype : String
  rpt_type : Option String
  start : Nat
  flen : Nat
  deriving DecidableEq, Repr

/-- A sequence record: its length and its annotated features. -/
structure Seq where
  length : Nat
  features : List SeqFeature
  deriving DecidableEq, Repr

/-- The `rep_regs` list of `find_chloroplast_irs`
(`src/zci_bio/chloroplast/utils.py`): features of type `repeat_region` whose
`rpt_type` qualifier (defaulting to `inverted` when absent) is `inverted`. -/
def invRepeats (seq : Seq) : List SeqFeature :=
  seq.features.filter fun f =>
    f.ftype == "repeat_region" && f.rpt_type.getD "inverted" == "inverted"

/-- The `max_regs` list of `find_chloroplast_irs`: the inverted-repeat
features tied for maximum length. -/
def maxTied (seq : Seq) : List SeqFeature :=
  let rep_regs := invRepeats seq
  let max_len := (rep_regs.map SeqFeature.flen).foldl Nat.max 0
  rep_regs.filter fun f => f.flen == max_len

/-- Embedding of `find_chloroplast_irs(seq)` from
`src/zci_bio/chloroplast/utils.py`: `None` unless exactly two inverted
repeat_region features are tied for maximum length; the tied pair is swapped
when `len(seq) // 4 < irb.start < ira.start`. -/
def find_chloroplast_irs (seq : Seq) : Option (SeqFeature × SeqFeature) :=
  match invRepeats seq with
  | [] => none
  | _ :: _ =>
    match maxTied seq with
    | [ira, irb] =>
      some (if seq.length / 4 < irb.start ∧ irb.start < ira.start
            then (irb, ira) else (ira, irb))
    | _ => none

/-- Positions covered by the two seed arcs (`ira`, `irb`) of a partition. -/
def covTwo (L s1 l1 s2 l2 p : Nat) : Bool :=
  inArcB L s1 l1 p || inArcB L s2 l2 p

/-- Fuel-indexed scan counting consecutive positions (mod `L`), starting at
`i`, on which `cov` is false. -/
def runAux (cov : Nat → Bool) (L : Nat) : Nat → Nat → Nat
  | _, 0 => 0
  | i, fuel+1 => if cov (i % L) then 0 else runAux cov L (i+1) fuel + 1

/-- Length of the run of uncovered positions starting at `p` on the circle of
length `L` (capped at `L`). -/
def runLen (cov : Nat → Bool) (L p : Nat) : Nat := runAux cov L p L

/-- Modelled from the spec: the gap-fill step of
`Partition([...], fill=True)` / `not_named_parts()` from
`zci_bio/utils/features.py` (not among the given sources).  The spec says the
builder "fills the two uncovered gaps", the gaps being the uncovered
intervals of the circular coordinate space; so the unnamed parts are the
maximal runs of uncovered positions, listed by their start position: a gap
starts at an uncovered position whose circular predecessor is covered. -/
def gapsOf (cov : Nat → Bool) (L : Nat) : List (Nat × Nat) :=
  (List.range L).filterMap fun p =>
    if !cov p && cov ((p + L - 1) % L) then some (p, runLen cov L p) else none

/-- A named part of a partition: name, start position and length. -/
structure Part where
  name : String
  start : Nat
  plen : Nat
  deriving DecidableEq, Repr

/-- Embedding of `find_chloroplast_partition(seq_ident, seq)` from
`src/zci_bio/chloroplast/utils.py`.  `.ok none` embeds Python's `None`
result, `.error` embeds the `assert len(n_parts) == 2` failure, and
`.ok (some parts)` embeds a returned partition (seed parts `ira`, `irb`
followed by the two gap parts, the longer gap named `lsc` via
`ssc_ind = int(len(n_parts[0]) > len(n_parts[1]))`). -/
def find_chloroplast_partition (seq_ident : String) (seq : Seq) :
    Except String (Option (List Part)) :=
  match find_chloroplast_irs seq with
  | none => .ok none
  | some (ira, irb) =>
    let L := seq.length
    match gapsOf (covTwo L ira.start ira.flen irb.start irb.flen) L with
    | [g0, g1] =>
      if g0.2 > g1.2 then
        .ok (some [⟨"ira", ira.start, ira.flen⟩, ⟨"irb", irb.start, irb.flen⟩,
                   ⟨"lsc", g0.1, g0.2⟩, ⟨"ssc", g1.1, g1.2⟩])
      else
        .ok (some [⟨"ira", ira.start, ira.flen⟩, ⟨"irb", irb.start, irb.flen⟩,
                   ⟨"ssc", g0.1, g0.2⟩, ⟨"lsc", g1.1, g1.2⟩])
    | _ => .error "assert len(n_parts) == 2"

/-- Example sequence: length 24, inverted repeats `[8,14)` and `[18,24)`,
plus one non-repeat feature. -/
def exSeq : Seq :=
  ⟨24, [⟨"repeat_region", some "inverted", 8, 6⟩,
        ⟨"repeat_region", none, 18, 6⟩,
        ⟨"gene", none, 0, 3⟩]⟩

/-- Example sequence with three inverted repeats tied for maximum length. -/
def exSeq3 : Seq :=
  ⟨24, [⟨"repeat_region", some "inverted", 2, 6⟩,
        ⟨"repeat_region", some "inverted", 10, 6⟩,
        ⟨"repeat_region", some "inverted", 18, 6⟩]⟩

/-- The partition the builder produces on `exSeq`. -/
def exParts : List Part :=
  [⟨"ira", 8, 6⟩, ⟨"irb", 18, 6⟩, ⟨"lsc", 0, 8⟩, ⟨"ssc", 14, 4⟩]

/-- Modelled from the spec: an `AlignmentMatch` of the external alignment
runner (`MummerDelta` from `zci_bio/utils/mummer.py` is not among the given
sources): a target-sequence coordinate interval (`sequence_interval`) and a
strand flag (`positive`). -/
structure AMatch where
  sequence_interval : Int × Int
  positive : Bool
  deriving DecidableEq, Repr

/-- Modelled from the spec: the alignment result consumed by the tier
functions, holding `align.aligns(None, 'end1')` and
`align.aligns(None, 'end2')` — the matches for each query label, ordered by
start coordinate. -/
structure Alignment where
  end1 : List AMatch
  end2 : List AMatch
  deriving DecidableEq, Repr

/-- Embedding of `_get_nice_irs(align)` from
`src/zci_bio/chloroplast/analyse_step_3.py`: requires exactly two matches for
each end; `ira_1, irb_2 = aligns(None, 'end1')`,
`ira_2, irb_1 = aligns(None, 'end2')`. -/
def get_nice_irs (a : Alignment) : Option ((Int × Int) × (Int × Int)) :=
  match a.end1, a.end2 with
  | [ira_1, irb_2], [ira_2, irb_1] =>
    some ((ira_1.sequence_interval.1, ira_2.sequence_interval.2),
          (irb_1.sequence_interval.1, irb_2.sequence_interval.2))
  | _, _ => none

/-- Embedding of `_get_2_1_irs(align)` from
`src/zci_bio/chloroplast/analyse_step_3.py`: two `end1` matches and one
`end2` match; the missing bound is extrapolated using the single match's
strand flag. -/
def get_2_1_irs (a : Alignment) : Option ((Int × Int) × (Int × Int)) :=
  match a.end1, a.end2 with
  | [ira_1, irb_2], [ir] =>
    if ir.positive then
      some ((ira_1.sequence_interval.1, ir.sequence_interval.2),
            (irb_2.sequence_interval.2 -
              (ir.sequence_interval.2 - ira_1.sequence_interval.1),
             irb_2.sequence_interval.2))
    else
      some ((ira_1.sequence_interval.1,
             ira_1.sequence_interval.1 +
               (irb_2.sequence_interval.2 - ir.sequence_interval.1)),
            (ir.sequence_interval.1, irb_2.sequence_interval.2))
  | _, _ => none

/-- Embedding of `_get_1_2_irs(align)` from
`src/zci_bio/chloroplast/analyse_step_3.py`: one `end1` match and two `end2`
matches; symmetric mirror of `_get_2_1_irs`. -/
def get_1_2_irs (a : Alignment) : Option ((Int × Int) × (Int × Int)) :=
  match a.end1, a.end2 with
  | [ir], [ira_2, irb_1] =>
    if ir.positive then
      some ((ir.sequence_interval.1, ira_2.sequence_interval.2),
            (irb_1.sequence_interval.1,
             irb_1.sequence_interval.1 +
               (ira_2.sequence_interval.2 - ir.sequence_interval.1)))
    else
      some ((ira_2.sequence_interval.2 -
              (ir.sequence_interval.2 - irb_1.sequence_interval.1),
             ira_2.sequence_interval.2),
            (irb_1.sequence_interval.1, ir.sequence_interval.2))
  | _, _ => none

/-- The span measure `_l` of `_get_the_best_ir`:
`(ira[1] - ira[0]) if ira[1] > ira[0] else (irb[1] - irb[0])`. -/
def irsMeasure (irs : (Int × Int) × (Int × Int)) : Int :=
  if irs.1.2 > irs.1.1 then irs.1.2 - irs.1.1 else irs.2.2 - irs.2.1

/-- One step of the `max_l, max_irs` accumulation loop of
`_get_the_best_ir`. -/
def bestStep (acc : Option Int × Option ((Int × Int) × (Int × Int)))
    (irs : Option ((Int × Int) × (Int × Int))) :
    Option Int × Option ((Int × Int) × (Int × Int)) :=
  match irs with
  | none => acc
  | some v =>
    match acc.1 with
    | none => (some (irsMeasure v), some v)
    | some ml => if irsMeasure v > ml then (some (irsMeasure v), some v) else acc

/-- Embedding of `_get_the_best_ir(irss)` from
`src/zci_bio/chloroplast/analyse_step_3.py`: among the non-`None` entries,
the first one of maximal `_l` measure. -/
def get_the_best_ir (irss : List (Option ((Int × Int) × (Int × Int)))) :
    Option ((Int × Int) × (Int × Int)) :=
  (irss.foldl bestStep (none, none)).2

/-- Embedding of `_get_the_best_irs(alignments)` from
`src/zci_bio/chloroplast/analyse_step_3.py`: try the nice tier, then the
2+1 tier, then the 1+2 tier across all alignments, stopping at the first
tier that yields a result. -/
def get_the_best_irs (alignments : List Alignment) :
    Option ((Int × Int) × (Int × Int)) :=
  match get_the_best_ir (alignments.map get_nice_irs) with
  | some x => some x
  | none =>
    match get_the_best_ir (alignments.map get_2_1_irs) with
    | some x => some x
    | none => get_the_best_ir (alignments.map get_1_2_irs)

/-- A candidate relative of `_run_align`: its sequence identifier and the
alignment its extracted IR-end queries produce against the target (the
output of the external `run_align_cmd`, supplied as data). -/
structure Cand where
  ident : String
  align : Alignment
  deriving DecidableEq, Repr

/-- Embedding of the candidate loop of `_run_align` from
`src/zci_bio/chloroplast/analyse_step_3.py`.  First component: the entry
recorded in `seq_2_result_object` (`none` when nothing is recorded); second
component: the identifiers of the candidates whose alignment was actually
run.  The `last` argument carries the Python loop variable `d`, which after
the loop still names the last candidate iterated — the final recording uses
it (`seq_2_result_object[seq_ident] = (*x, d.seq_ident)`).  When the
candidate list is empty `_get_the_best_irs([])` is `None`, so the `last`
lookup is never reached (in Python it would raise `NameError`). -/
def run_align_loop (first_nice : Bool) :
    List Cand → List Alignment → Option String →
    Option (((Int × Int) × (Int × Int)) × String) × List String
  | [], all_aligns, last =>
    (match get_the_best_irs all_aligns, last with
     | some x, some ident => some (x, ident)
     | _, _ => none,
     [])
  | d :: rest, all_aligns, _ =>
    if first_nice then
      match get_nice_irs d.align with
      | some x => (some (x, d.ident), [d.ident])
      | none =>
        let r := run_align_loop first_nice rest (all_aligns ++ [d.align]) (some d.ident)
        (r.1, d.ident :: r.2)
    else
      let r := run_align_loop first_nice rest (all_aligns ++ [d.align]) (some d.ident)
      (r.1, d.ident :: r.2)

/-- The entry `_run_align(seq_ident, seq_data, close_data, result, ...)`
records for its sequence, given the alignments each candidate produces. -/
def run_align (close_data : List Cand) (first_nice : Bool) :
    Option (((Int × Int) × (Int × Int)) × String) :=
  (run_align_loop first_nice close_data [] none).1

/-- The candidates `_run_align` actually runs an alignment against, in
order. -/
def run_align_examined (close_data : List Cand) (first_nice : Bool) :
    List String :=
  (run_align_loop first_nice close_data [] none).2

/-- Example alignment with two matches per end whose two `end2` matches have
different end coordinates. -/
def exAlign : Alignment :=
  ⟨[⟨(0, 100), true⟩, ⟨(900, 1000), true⟩],
   [⟨(200, 300), true⟩, ⟨(700, 800), true⟩]⟩

/-- Example alignment with two `end1` matches and one positive-strand `end2`
match. -/
def exAlign21 : Alignment :=
  ⟨[⟨(0, 100), true⟩, ⟨(900, 1000), true⟩], [⟨(400, 500), true⟩]⟩

/-- Example alignment with no matches at all. -/
def exAlignNone : Alignment := ⟨[], []⟩

/-- Example alignment with two matches per end (nice tier). -/
def exAlignB : Alignment :=
  ⟨[⟨(10, 20), true⟩, ⟨(80, 90), true⟩],
   [⟨(30, 40), true⟩, ⟨(60, 70), true⟩]⟩

/-- Candidate with no usable matches. -/
def exCandA : Cand := ⟨"A", exAlignNone⟩

/-- Candidate producing a nice-tier result. -/
def exCandB : Cand := ⟨"B", exAlignB⟩

/-- A further candidate after the nice one. -/
def exCandC : Cand := ⟨"C", exAlign⟩

/-- Candidate whose alignment admits only a 2+1-tier result. -/
def exCandD1 : Cand := ⟨"D1", exAlign21⟩

/-- Candidate whose alignment admits no tier result. -/
def exCandD2 : Cand := ⟨"D2", exAlignNone⟩

/-- `startsWithL needle l`: `needle` is a prefix of `l` (character lists). -/
def startsWithL : List Char → List Char → Bool
  | [], _ => true
  | _ :: _, [] => false
  | a :: as, b :: bs => a == b && startsWithL as bs

/-- Python's substring test `needle in hay` on character lists. -/
def strHas : List Char → List Char → Bool
  | [], needle => startsWithL needle []
  | c :: t, needle => startsWithL needle (c :: t) || strHas t needle

/-- Python's substring test `sub in name` on strings. -/
def nameHas (name sub : String) : Bool := strHas name.toList sub.toList

/-- A gene feature as used by the orientation checker: gene name, strand
(`+1`/`-1`) and location start. -/
structure GeneF where
  name : String
  strand : Int
  start : Nat
  deriving DecidableEq, Repr

/-- `Partition.get_part_by_name`: the part with the given name. -/
def get_part_by_name (parts : List Part) (n : String) : Option Part :=
  parts.find? fun p => p.name == n

/-- Modelled from the spec: `put_features_in_parts` of
`zci_bio/utils/features.py` (not among the given sources) — each gene is
bucketed into the partition interval containing its start coordinate;
`in_parts.get(name, [])` is the bucket of the part with that name (empty
when no part has that name). -/
def genes_in_part (L : Nat) (parts : List Part) (pname : String)
    (genes : List GeneF) : List GeneF :=
  match get_part_by_name parts pname with
  | some p => genes.filter fun g => inArcB L p.start p.plen g.start
  | none => []

/-- `lsc_count` of `chloroplast_parts_orientation`: summed strand of the
`rpl`/`rps` genes bucketed in the `lsc` part. -/
def lsc_count (L : Nat) (parts : List Part) (genes : List GeneF) : Int :=
  ((genes_in_part L parts "lsc" genes).map fun g =>
    if nameHas g.name "rpl" || nameHas g.name "rps" then g.strand else 0).sum

/-- `ssc_count` of `chloroplast_parts_orientation`: summed strand of all
genes bucketed in the `ssc` part. -/
def ssc_count (L : Nat) (parts : List Part) (genes : List GeneF) : Int :=
  ((genes_in_part L parts "ssc" genes).map fun g => g.strand).sum

/-- `ira_count` of `chloroplast_parts_orientation`: summed strand of the
`rrn` genes bucketed in the `ira` part. -/
def ira_count (L : Nat) (parts : List Part) (genes : List GeneF) : Int :=
  ((genes_in_part L parts "ira" genes).map fun g =>
    if nameHas g.name "rrn" then g.strand else 0).sum

/-- The orientation flags returned as `dict(lsc=..., ssc=..., ira=...)`. -/
structure Orient where
  lsc : Bool
  ssc : Bool
  ira : Bool
  deriving DecidableEq, Repr

/-- Embedding of `chloroplast_parts_orientation(seq_rec, partition, genes)`
from `src/zci_bio/chloroplast/analyse_step_1.py`:
`dict(lsc=(lsc_count <= 0), ssc=(ssc_count <= 0), ira=(ira_count >= 0))`. -/
def chloroplast_parts_orientation (L : Nat) (parts : List Part)
    (genes : List GeneF) : Orient :=
  ⟨decide (lsc_count L parts genes ≤ 0),
   decide (ssc_count L parts genes ≤ 0),
   decide (ira_count L parts genes ≥ 0)⟩

/-- Example gene list for the orientation checker on `exParts`. -/
def exGenes : List GeneF :=
  [⟨"rpl2", 1, 2⟩, ⟨"psbA", -1, 15⟩, ⟨"ndhB", 1, 9⟩]

/-! ## Theorems -/

theorem inArcB_eq_dm (L s l p : Nat) : inArcB L s l p = decide (dm L s p < l) := rfl

theorem dm_lt (L s p : Nat) (hL : 0 < L) : dm L s p < L := Nat.mod_lt _ hL

theorem dm_eq (L s p : Nat) (hs : s < L) (hp : p < L) :
    dm L s p = if s ≤ p then p - s else p + L - s := by
  unfold dm
  rcases le_or_lt s p with h | h
  · have h1 : p + L - s = (p - s) + L := by omega
    simp [h, h1, Nat.add_mod_right]
    exact Nat.mod_eq_of_lt (by omega)
  · have h2 : p + L - s < L := by omega
    rw [Nat.mod_eq_of_lt h2]
    simp [Nat.not_le.mpr h]

theorem dm_self (L s : Nat) (hs : s < L) : dm L s s = 0 := by
  rw [dm_eq L s s hs hs]; simp

theorem dm_inj (L a p q : Nat) (hp : p < L) (hq : q < L)
    (h : dm L a p = dm L a q) (ha : a < L) : p = q := by
  rw [dm_eq L a p ha hp, dm_eq L a q ha hq] at h
  split_ifs at h <;> omega

theorem dm_add (L a i : Nat) (ha : a < L) : dm L a ((a + i) % L) = i % L := by
  unfold dm
  have h1 : (a + i) % L + L - a = (a + i) % L + (L - a) := by omega
  rw [h1, Nat.add_mod, Nat.mod_mod_of_dvd _ (dvd_refl L)]
  rw [← Nat.add_mod]
  have h2 : a + i + (L - a) = L + i := by omega
  rw [h2, Nat.add_mod_left]

theorem dm_rot (L a s p : Nat) (ha : a < L) (hs : s < L) (hp : p < L) :
    dm L s p = dm L (dm L a s) (dm L a p) := by
  have h1 := dm_lt L a s (by omega)
  have h2 := dm_lt L a p (by omega)
  rw [dm_eq L s p hs hp, dm_eq L a s ha hs, dm_eq L a p ha hp,
      dm_eq L _ _ (by split_ifs <;> omega) (by split_ifs <;> omega)]
  split_ifs <;> omega

theorem dm_symm (L a b : Nat) (ha : a < L) (hb : b < L) :
    dm L a b + dm L b a = if a = b then 0 else L := by
  rw [dm_eq L a b ha hb, dm_eq L b a hb ha]
  split_ifs <;> omega

theorem add_dm (L p c : Nat) (hp : p < L) (hc : c < L) :
    (p + dm L p c) % L = c := by
  rw [dm_eq L p c hp hc]
  split_ifs with h
  · have h1 : p + (c - p) = c := by omega
    rw [h1, Nat.mod_eq_of_lt hc]
  · have h1 : p + (c + L - p) = c + L := by omega
    rw [h1, Nat.add_mod_right, Nat.mod_eq_of_lt hc]

theorem mod_add_one (L x : Nat) : (x % L + 1) % L = (x + 1) % L := by
  conv_rhs => rw [Nat.add_mod]
  rw [Nat.add_mod (x % L) 1, Nat.mod_mod_of_dvd _ (dvd_refl L)]

theorem runAux_succ_eq (cov : Nat → Bool) (L i n : Nat) :
    runAux cov L i (n+1) =
      if cov (i % L) = true then 0 else runAux cov L (i+1) n + 1 := by
  rfl

theorem runAux_le (cov : Nat → Bool) (L : Nat) :
    ∀ fuel i, runAux cov L i fuel ≤ fuel := by
  intro fuel
  induction fuel with
  | zero => intro i; simp [runAux]
  | succ n ih =>
    intro i
    have h := ih (i + 1)
    rw [runAux_succ_eq]
    split_ifs <;> omega

theorem runAux_uncov (cov : Nat → Bool) (L : Nat) :
    ∀ fuel i j, j < runAux cov L i fuel → cov ((i + j) % L) = false := by
  intro fuel
  induction fuel with
  | zero => intro i j h; simp [runAux] at h
  | succ n ih =>
    intro i j h
    rw [runAux_succ_eq] at h
    split_ifs at h with hcv
    · omega
    · cases j with
      | zero => simpa using Bool.of_not_eq_true hcv
      | succ j' =>
        have h2 := ih (i + 1) j' (by omega)
        have h3 : i + 1 + j' = i + (j' + 1) := by omega
        rwa [h3] at h2

theorem runAux_cov (cov : Nat → Bool) (L : Nat) :
    ∀ fuel i, runAux cov L i fuel < fuel →
      cov ((i + runAux cov L i fuel) % L) = true := by
  intro fuel
  induction fuel with
  | zero => intro i h; omega
  | succ n ih =>
    intro i h
    rw [runAux_succ_eq] at h ⊢
    split_ifs with hcv
    · simpa using hcv
    · have h2 := ih (i + 1) (by split_ifs at h; omega)
      have h3 : i + (runAux cov L (i + 1) n + 1) = i + 1 + runAux cov L (i + 1) n := by
        omega
      rwa [h3]

theorem runLen_le (cov : Nat → Bool) (L p : Nat) : runLen cov L p ≤ L :=
  runAux_le cov L L p

theorem runLen_uncov (cov : Nat → Bool) (L p j : Nat) (h : j < runLen cov L p) :
    cov ((p + j) % L) = false :=
  runAux_uncov cov L L p j h

theorem runLen_cov (cov : Nat → Bool) (L p : Nat) (h : runLen cov L p < L) :
    cov ((p + runLen cov L p) % L) = true :=
  runAux_cov cov L L p h

theorem mem_gapsOf (cov : Nat → Bool) (L p n : Nat) :
    (p, n) ∈ gapsOf cov L ↔
      p < L ∧ cov p = false ∧ cov ((p + L - 1) % L) = true ∧ n = runLen cov L p := by
  unfold gapsOf
  simp only [List.mem_filterMap, List.mem_range]
  constructor
  · rintro ⟨a, ha, hf⟩
    by_cases hc : (!cov a && cov ((a + L - 1) % L)) = true
    · rw [if_pos hc] at hf
      simp only [Option.some.injEq, Prod.mk.injEq] at hf
      obtain ⟨rfl, rfl⟩ := hf
      simp only [Bool.and_eq_true, Bool.not_eq_true'] at hc
      exact ⟨ha, hc.1, hc.2, rfl⟩
    · rw [if_neg hc] at hf
      simp at hf
  · rintro ⟨hp, hc1, hc2, rfl⟩
    exact ⟨p, hp, by simp [hc1, hc2]⟩

theorem filterMap_if_map_fst {α β : Type} (c : α → Bool) (g : α → β) :
    ∀ l : List α,
      (l.filterMap fun p => if c p then some (p, g p) else none).map Prod.fst
        = l.filter c := by
  intro l
  induction l with
  | nil => simp
  | cons a t ih =>
    by_cases h : c a = true
    · simp [List.filterMap_cons, List.filter_cons, h, ih]
    · simp only [Bool.not_eq_true] at h
      simp [List.filterMap_cons, List.filter_cons, h, ih]

theorem gapsOf_starts (cov : Nat → Bool) (L : Nat) :
    (gapsOf cov L).map Prod.fst
      = (List.range L).filter fun p => !cov p && cov ((p + L - 1) % L) := by
  unfold gapsOf
  exact filterMap_if_map_fst _ _ _

theorem gapsOf_starts_nodup (cov : Nat → Bool) (L : Nat) :
    ((gapsOf cov L).map Prod.fst).Nodup := by
  rw [gapsOf_starts]
  exact (List.nodup_range L).filter _

/-- An uncovered position whose circular predecessor is covered is the end of
one of the two seed arcs. -/
theorem gap_start_eq_arc_end (L s1 l1 s2 l2 p : Nat) (hL : 0 < L)
    (hs1 : s1 < L) (hs2 : s2 < L) (hl1 : 0 < l1) (hl1' : l1 ≤ L)
    (hl2 : 0 < l2) (hl2' : l2 ≤ L) (hp : p < L)
    (hunc : covTwo L s1 l1 s2 l2 p = false)
    (hcov : covTwo L s1 l1 s2 l2 ((p + L - 1) % L) = true) :
    p = (s1 + l1) % L ∨ p = (s2 + l2) % L := by
  have hpred : (p + L - 1) % L < L := Nat.mod_lt _ hL
  have hsucc : ((p + L - 1) % L + 1) % L = p := by
    rw [mod_add_one]
    have h1 : p + L - 1 + 1 = p + L := by omega
    rw [h1, Nat.add_mod_right, Nat.mod_eq_of_lt hp]
  simp only [covTwo, Bool.or_eq_true] at hcov
  simp only [covTwo, Bool.or_eq_false_iff] at hunc
  have key : ∀ s l : Nat, s < L → 0 < l → l ≤ L →
      inArcB L s l ((p + L - 1) % L) = true → inArcB L s l p = false →
      p = (s + l) % L := by
    intro s l hs hl hl' hin hout
    rw [inArcB_eq_dm, decide_eq_true_eq] at hin
    rw [inArcB_eq_dm, decide_eq_false_iff_not] at hout
    set d := dm L s ((p + L - 1) % L) with hd
    have hpredd : (s + d) % L = (p + L - 1) % L := add_dm L s _ hs hpred
    have hpd : p = (s + (d + 1)) % L := by
      rw [← hsucc, ← hpredd, mod_add_one, Nat.add_assoc]
    have hdm : dm L s p = (d + 1) % L := by
      rw [hpd]; exact dm_add L s (d + 1) hs
    rcases lt_or_ge (d + 1) L with hcase | hcase
    · rw [Nat.mod_eq_of_lt hcase] at hdm
      have : d + 1 = l := by omega
      rw [hpd, this]
    · have hlL : l = L := by omega
      exact absurd (by rw [hlL]; exact dm_lt L s p hL) hout
  rcases hcov with hin1 | hin2
  · exact Or.inl (key s1 l1 hs1 hl1 hl1' hin1 hunc.1)
  · exact Or.inr (key s2 l2 hs2 hl2 hl2' hin2 hunc.2)

/-- Core structural lemma: when the ends of the two seed arcs are distinct
and both uncovered, the two uncovered runs starting at those ends, together
with the two arcs, tile the circle exactly once. -/
theorem two_gaps_core (L s1 l1 s2 l2 e1 e2 n1 n2 : Nat)
    (he1 : e1 = (s1 + l1) % L) (he2 : e2 = (s2 + l2) % L)
    (hn1 : n1 = runLen (covTwo L s1 l1 s2 l2) L e1)
    (hn2 : n2 = runLen (covTwo L s1 l1 s2 l2) L e2)
    (hL : 0 < L) (hs1 : s1 < L) (hs2 : s2 < L)
    (hl1 : 0 < l1) (hl1' : l1 ≤ L) (hl2 : 0 < l2) (hl2' : l2 ≤ L)
    (hne : e1 ≠ e2)
    (hu1 : covTwo L s1 l1 s2 l2 e1 = false)
    (hu2 : covTwo L s1 l1 s2 l2 e2 = false) :
    l1 + l2 + n1 + n2 = L ∧
    (∀ p, p < L →
      ¬(inArcB L s1 l1 p = true ∧ inArcB L s2 l2 p = true) ∧
      ¬(inArcB L s1 l1 p = true ∧ inArcB L e1 n1 p = true) ∧
      ¬(inArcB L s1 l1 p = true ∧ inArcB L e2 n2 p = true) ∧
      ¬(inArcB L s2 l2 p = true ∧ inArcB L e1 n1 p = true) ∧
      ¬(inArcB L s2 l2 p = true ∧ inArcB L e2 n2 p = true) ∧
      ¬(inArcB L e1 n1 p = true ∧ inArcB L e2 n2 p = true)) := by
  have he1L : e1 < L := he1 ▸ Nat.mod_lt _ hL
  have he2L : e2 < L := he2 ▸ Nat.mod_lt _ hL
  simp only [covTwo, Bool.or_eq_false_iff] at hu1 hu2
  have hss1 : covTwo L s1 l1 s2 l2 s1 = true := by
    have h : inArcB L s1 l1 s1 = true := by
      rw [inArcB_eq_dm, dm_self L s1 hs1]; simpa using hl1
    unfold covTwo; rw [h]; simp
  have hss2 : covTwo L s1 l1 s2 l2 s2 = true := by
    have h : inArcB L s2 l2 s2 = true := by
      rw [inArcB_eq_dm, dm_self L s2 hs2]; simpa using hl2
    unfold covTwo; rw [h]; simp
  have hl1L : l1 < L := by
    rcases eq_or_lt_of_le hl1' with heq | h
    · exfalso
      have harc : inArcB L s1 l1 e1 = true := by
        rw [inArcB_eq_dm, heq]
        simpa using dm_lt L s1 e1 hL
      rw [hu1.1] at harc; exact Bool.false_ne_true harc
    · exact h
  have hl2L : l2 < L := by
    rcases eq_or_lt_of_le hl2' with heq | h
    · exfalso
      have harc : inArcB L s2 l2 e2 = true := by
        rw [inArcB_eq_dm, heq]
        simpa using dm_lt L s2 e2 hL
      rw [hu2.2] at harc; exact Bool.false_ne_true harc
    · exact h
  have hm_def : dm L s1 e1 = l1 := by
    rw [he1]
    have h := dm_add L s1 l1 hs1
    rwa [Nat.mod_eq_of_lt hl1L] at h
  have hs1ne : s1 ≠ e1 := by
    intro h
    rw [← h, dm_self L s1 hs1] at hm_def; omega
  have hm : dm L e1 s1 = L - l1 := by
    have h := dm_symm L s1 e1 hs1 he1L
    rw [if_neg hs1ne] at h; omega
  have htL : dm L e1 s2 < L := dm_lt L e1 s2 hL
  set t := dm L e1 s2 with ht_def
  have hs2t : (e1 + t) % L = s2 := add_dm L e1 s2 he1L hs2
  have rot1 : ∀ p, p < L → (inArcB L s1 l1 p = true ↔ L - l1 ≤ dm L e1 p) := by
    intro p hp
    rw [inArcB_eq_dm, decide_eq_true_eq, dm_rot L e1 s1 p he1L hs1 hp, hm]
    have hq := dm_lt L e1 p hL
    rw [dm_eq L (L - l1) (dm L e1 p) (by omega) hq]
    split_ifs <;> omega
  -- the end of arc 1 is not inside arc 2: `t + l2 ≤ L` and `0 < t`
  have harc2e1 : ¬ dm L s2 e1 < l2 := by
    rw [← decide_eq_true_eq (p := dm L s2 e1 < l2), ← inArcB_eq_dm, hu1.2]
    simp
  have hdm21 : dm L s2 e1 = dm L t 0 := by
    rw [dm_rot L e1 s2 e1 he1L hs2 he1L, dm_self L e1 he1L]
  have ht0 : 0 < t := by
    rcases Nat.eq_zero_or_pos t with h0 | h; swap; · exact h
    exfalso
    rw [hdm21, h0, dm_self L 0 hL] at harc2e1
    exact harc2e1 hl2
  have ht2 : t + l2 ≤ L := by
    rw [hdm21, dm_eq L t 0 htL hL] at harc2e1
    rw [if_neg (by omega)] at harc2e1
    omega
  have he2e : (e1 + (t + l2)) % L = e2 := by
    rw [he2, ← hs2t, Nat.mod_add_mod, Nat.add_assoc]
  have htl2 : t + l2 < L := by
    rcases eq_or_lt_of_le ht2 with heq | h; swap; · exact h
    exfalso
    have h0 : dm L e1 e2 = 0 := by
      rw [← he2e, heq, dm_add L e1 L he1L, Nat.mod_self]
    have : e2 = e1 := by
      refine dm_inj L e1 e2 e1 he2L he1L ?_ he1L
      rw [h0, dm_self L e1 he1L]
    exact hne this.symm
  have he2rot : dm L e1 e2 = t + l2 := by
    rw [← he2e, dm_add L e1 _ he1L, Nat.mod_eq_of_lt htl2]
  have rot2 : ∀ p, p < L →
      (inArcB L s2 l2 p = true ↔ t ≤ dm L e1 p ∧ dm L e1 p < t + l2) := by
    intro p hp
    rw [inArcB_eq_dm, decide_eq_true_eq, dm_rot L e1 s2 p he1L hs2 hp, ← ht_def]
    have hq := dm_lt L e1 p hL
    rw [dm_eq L t (dm L e1 p) htL hq]
    split_ifs <;> omega
  have htm : t + l2 < L - l1 := by
    have h1 : ¬ (L - l1 ≤ dm L e1 e2) := by
      intro hc
      have := (rot1 e2 he2L).mpr hc
      rw [hu2.1] at this; exact Bool.false_ne_true this
    rw [he2rot] at h1; omega
  have covIff : ∀ p, p < L → (covTwo L s1 l1 s2 l2 p = true ↔
      (L - l1 ≤ dm L e1 p ∨ (t ≤ dm L e1 p ∧ dm L e1 p < t + l2))) := by
    intro p hp
    unfold covTwo
    rw [Bool.or_eq_true, rot1 p hp, rot2 p hp]
  have hn1t : n1 = t := by
    have hle : n1 ≤ t := by
      by_contra hcon
      push_neg at hcon
      have h := runLen_uncov (covTwo L s1 l1 s2 l2) L e1 t (by omega)
      rw [hs2t, hss2] at h
      simp at h
    have hn1L : n1 < L := by omega
    have hcv := runLen_cov (covTwo L s1 l1 s2 l2) L e1 (by omega)
    rw [← hn1] at hcv
    have hq : (e1 + n1) % L < L := Nat.mod_lt _ hL
    have hdmq : dm L e1 ((e1 + n1) % L) = n1 := by
      rw [dm_add L e1 n1 he1L, Nat.mod_eq_of_lt hn1L]
    have h := (covIff _ hq).mp hcv
    rw [hdmq] at h
    omega
  have he2n : ∀ j, (e2 + j) % L = (e1 + (t + l2 + j)) % L := by
    intro j
    rw [← he2e, Nat.mod_add_mod, Nat.add_assoc]
  have hs1e : (e1 + (L - l1)) % L = s1 := by
    have h := add_dm L e1 s1 he1L hs1
    rwa [hm] at h
  have hn2v : n2 = L - l1 - (t + l2) := by
    have hle : n2 ≤ L - l1 - (t + l2) := by
      by_contra hcon
      push_neg at hcon
      have h := runLen_uncov (covTwo L s1 l1 s2 l2) L e2 (L - l1 - (t + l2))
        (by omega)
      rw [he2n _] at h
      have harith : t + l2 + (L - l1 - (t + l2)) = L - l1 := by omega
      rw [harith, hs1e, hss1] at h
      simp at h
    have hn2L : n2 < L := by omega
    have hcv := runLen_cov (covTwo L s1 l1 s2 l2) L e2 (by omega)
    rw [← hn2] at hcv
    have hq : (e2 + n2) % L < L := Nat.mod_lt _ hL
    have hdmq : dm L e1 ((e2 + n2) % L) = t + l2 + n2 := by
      rw [he2n n2, dm_add L e1 _ he1L, Nat.mod_eq_of_lt (by omega)]
    have h := (covIff _ hq).mp hcv
    rw [hdmq] at h
    omega
  refine ⟨by omega, ?_⟩
  intro p hp
  have hq := dm_lt L e1 p hL
  have r1 := rot1 p hp
  have r2 := rot2 p hp
  have rg1 : inArcB L e1 n1 p = true ↔ dm L e1 p < n1 := by
    rw [inArcB_eq_dm, decide_eq_true_eq]
  have rg2 : inArcB L e2 n2 p = true ↔
      t + l2 ≤ dm L e1 p ∧ dm L e1 p < t + l2 + n2 := by
    rw [inArcB_eq_dm, decide_eq_true_eq, dm_rot L e1 e2 p he1L he2L hp, he2rot]
    rw [dm_eq L (t + l2) (dm L e1 p) htl2 hq]
    split_ifs <;> omega
  refine ⟨?_, ?_, ?_, ?_, ?_, ?_⟩ <;> rintro ⟨ha, hb⟩
  · rw [r1] at ha; rw [r2] at hb; omega
  · rw [r1] at ha; rw [rg1] at hb; omega
  · rw [r1] at ha; rw [rg2] at hb; omega
  · rw [r2] at ha; rw [rg1] at hb; omega
  · rw [r2] at ha; rw [rg2] at hb; omega
  · rw [rg1] at ha; rw [rg2] at hb; omega

theorem covTwo_comm (L s1 l1 s2 l2 : Nat) :
    covTwo L s1 l1 s2 l2 = covTwo L s2 l2 s1 l1 := by
  funext p; unfold covTwo; exact Bool.or_comm _ _

theorem find_irs_mem (seq : Seq) (a b : SeqFeature)
    (h : find_chloroplast_irs seq = some (a, b)) :
    a ∈ seq.features ∧ b ∈ seq.features := by
  have hmem : ∀ f, f ∈ maxTied seq → f ∈ seq.features := by
    intro f hf
    unfold maxTied at hf
    have h1 := (List.mem_filter.mp hf).1
    unfold invRepeats at h1
    exact (List.mem_filter.mp h1).1
  unfold find_chloroplast_irs at h
  cases hrep : invRepeats seq with
  | nil => rw [hrep] at h; simp at h
  | cons x t =>
    rw [hrep] at h
    match hmax : maxTied seq with
    | [] => rw [hmax] at h; simp at h
    | [f1] => rw [hmax] at h; simp at h
    | [f1, f2] =>
      rw [hmax] at h
      have h1 : f1 ∈ seq.features := hmem f1 (by rw [hmax]; simp)
      have h2 : f2 ∈ seq.features := hmem f2 (by rw [hmax]; simp)
      simp only [Option.some.injEq] at h
      split_ifs at h with hc
      · simp only [Prod.mk.injEq] at h
        obtain ⟨rfl, rfl⟩ := h
        exact ⟨h2, h1⟩
      · simp only [Prod.mk.injEq] at h
        obtain ⟨rfl, rfl⟩ := h
        exact ⟨h1, h2⟩
    | f1 :: f2 :: f3 :: rest => rw [hmax] at h; simp at h

/-- C1: every partition returned by `find_chloroplast_partition` consists of
exactly four intervals named `lsc`, `ira`, `ssc`, `irb` that are pairwise
non-overlapping on the circular coordinate space and whose lengths sum
exactly to the sequence length. -/
theorem C1_partition_tiles_circle (seq_ident : String) (seq : Seq)
    (parts : List Part)
    (hwf : ∀ f ∈ seq.features,
      f.start < seq.length ∧ 0 < f.flen ∧ f.flen ≤ seq.length)
    (hres : find_chloroplast_partition seq_ident seq = .ok (some parts)) :
    (parts.map Part.name).Perm ["lsc", "ira", "ssc", "irb"] ∧
    (parts.map Part.plen).sum = seq.length ∧
    parts.Pairwise (fun a b => ∀ p, p < seq.length →
      ¬(inArcB seq.length a.start a.plen p = true ∧
        inArcB seq.length b.start b.plen p = true)) := by
  unfold find_chloroplast_partition at hres
  cases hirs : find_chloroplast_irs seq with
  | none => rw [hirs] at hres; simp at hres
  | some pr =>
    obtain ⟨ira, irb⟩ := pr
    rw [hirs] at hres
    dsimp only at hres
    obtain ⟨hmem1, hmem2⟩ := find_irs_mem seq ira irb hirs
    obtain ⟨hst1, hfl1, hfl1'⟩ := hwf ira hmem1
    obtain ⟨hst2, hfl2, hfl2'⟩ := hwf irb hmem2
    set L := seq.length with hLdef
    have hL : 0 < L := by omega
    match hg : gapsOf (covTwo L ira.start ira.flen irb.start irb.flen) L with
    | [] => rw [hg] at hres; simp at hres
    | [g0] => rw [hg] at hres; simp at hres
    | g0 :: g1 :: g2 :: rest => rw [hg] at hres; simp at hres
    | [(p1, n1), (p2, n2)] =>
      rw [hg] at hres
      dsimp only at hres
      have hm1 := (mem_gapsOf (covTwo L ira.start ira.flen irb.start irb.flen)
        L p1 n1).mp (by rw [hg]; exact List.mem_cons_self _ _)
      have hm2 := (mem_gapsOf (covTwo L ira.start ira.flen irb.start irb.flen)
        L p2 n2).mp (by rw [hg]; simp)
      obtain ⟨hp1L, hunc1, hpred1, hrun1⟩ := hm1
      obtain ⟨hp2L, hunc2, hpred2, hrun2⟩ := hm2
      have hnq : p1 ≠ p2 := by
        have hnd := gapsOf_starts_nodup
          (covTwo L ira.start ira.flen irb.start irb.flen) L
        rw [hg] at hnd
        simp only [List.map_cons, List.map_nil, List.nodup_cons,
          List.mem_cons, List.mem_singleton] at hnd
        intro hcon
        exact hnd.1 (by simp [hcon])
      have hga1 := gap_start_eq_arc_end L ira.start ira.flen irb.start irb.flen
        p1 hL hst1 hst2 hfl1 hfl1' hfl2 hfl2' hp1L hunc1 hpred1
      have hga2 := gap_start_eq_arc_end L ira.start ira.flen irb.start irb.flen
        p2 hL hst1 hst2 hfl1 hfl1' hfl2 hfl2' hp2L hunc2 hpred2
      -- the two gap starts are the two distinct arc ends; apply the core
      -- lemma in each of the two possible assignments
      have key : ira.flen + irb.flen + n1 + n2 = L ∧
          (∀ p, p < L →
            ¬(inArcB L ira.start ira.flen p = true ∧
              inArcB L irb.start irb.flen p = true) ∧
            ¬(inArcB L ira.start ira.flen p = true ∧
              inArcB L p1 n1 p = true) ∧
            ¬(inArcB L ira.start ira.flen p = true ∧
              inArcB L p2 n2 p = true) ∧
            ¬(inArcB L irb.start irb.flen p = true ∧
              inArcB L p1 n1 p = true) ∧
            ¬(inArcB L irb.start irb.flen p = true ∧
              inArcB L p2 n2 p = true) ∧
            ¬(inArcB L p1 n1 p = true ∧ inArcB L p2 n2 p = true)) := by
        rcases hga1 with h1 | h1 <;> rcases hga2 with h2 | h2
        · exact absurd (h1.trans h2.symm) hnq
        · have hne : (ira.start + ira.flen) % L ≠ (irb.start + irb.flen) % L := by
            rw [← h1, ← h2]; exact hnq
          have core := two_gaps_core L ira.start ira.flen irb.start irb.flen
            p1 p2 n1 n2 h1 h2 hrun1 hrun2 hL hst1 hst2 hfl1 hfl1' hfl2 hfl2'
            (by rw [h1, h2]; exact hne) hunc1 hunc2
          exact core
        · -- p1 is the end of arc irb, p2 the end of arc ira: swap the arcs
          have hcomm := covTwo_comm L ira.start ira.flen irb.start irb.flen
          have hne : (irb.start + irb.flen) % L ≠ (ira.start + ira.flen) % L := by
            rw [← h1, ← h2]; exact hnq
          have core := two_gaps_core L irb.start irb.flen ira.start ira.flen
            p1 p2 n1 n2 h1 h2 (by rw [← hcomm]; exact hrun1)
            (by rw [← hcomm]; exact hrun2) hL hst2 hst1 hfl2 hfl2' hfl1 hfl1'
            (by rw [h1, h2]; exact hne)
            (by rw [← hcomm]; exact hunc1) (by rw [← hcomm]; exact hunc2)
          obtain ⟨hsum, hdisj⟩ := core
          refine ⟨by omega, ?_⟩
          intro p hp
          obtain ⟨d12, d13, d14, d23, d24, d34⟩ := hdisj p hp
          exact ⟨fun ⟨x, y⟩ => d12 ⟨y, x⟩, d23, d24, d13, d14, d34⟩
        · exact absurd (h1.trans h2.symm) hnq
      obtain ⟨hsum, hdisj⟩ := key
      have d12 := fun p hp => ((hdisj p hp).1)
      have d13 := fun p hp => ((hdisj p hp).2.1)
      have d14 := fun p hp => ((hdisj p hp).2.2.1)
      have d23 := fun p hp => ((hdisj p hp).2.2.2.1)
      have d24 := fun p hp => ((hdisj p hp).2.2.2.2.1)
      have d34 := fun p hp => ((hdisj p hp).2.2.2.2.2)
      split_ifs at hres with hcmp <;>
        simp only [Except.ok.injEq, Option.some.injEq] at hres <;>
        subst hres <;>
        refine ⟨by simp only [List.map_cons, List.map_nil]; decide, ?_, ?_⟩
      · simp only [List.map_cons, List.map_nil, List.sum_cons, List.sum_nil]
        omega
      · refine List.Pairwise.cons ?_ (List.Pairwise.cons ?_
          (List.Pairwise.cons ?_ (List.Pairwise.cons (by simp) List.Pairwise.nil)))
        · intro b hb
          simp only [List.mem_cons, List.not_mem_nil, or_false] at hb
          rcases hb with rfl | rfl | rfl
          · exact d12
          · exact d13
          · exact d14
        · intro b hb
          simp only [List.mem_cons, List.not_mem_nil, or_false] at hb
          rcases hb with rfl | rfl
          · exact d23
          · exact d24
        · intro b hb
          simp only [List.mem_cons, List.not_mem_nil, or_false] at hb
          rcases hb with rfl
          exact d34
      · simp only [List.map_cons, List.map_nil, List.sum_cons, List.sum_nil]
        omega
      · refine List.Pairwise.cons ?_ (List.Pairwise.cons ?_
          (List.Pairwise.cons ?_ (List.Pairwise.cons (by simp) List.Pairwise.nil)))
        · intro b hb
          simp only [List.mem_cons, List.not_mem_nil, or_false] at hb
          rcases hb with rfl | rfl | rfl
          · exact d12
          · exact d13
          · exact d14
        · intro b hb
          simp only [List.mem_cons, List.not_mem_nil, or_false] at hb
          rcases hb with rfl | rfl
          · exact d23
          · exact d24
        · intro b hb
          simp only [List.mem_cons, List.not_mem_nil, or_false] at hb
          rcases hb with rfl
          exact d34

/-- Witness for C1 on the concrete sequence `exSeq` (length 24, inverted
repeats `[8,14)` and `[18,24)`). -/
theorem C1_witness :
    (∀ f ∈ exSeq.features,
      f.start < exSeq.length ∧ 0 < f.flen ∧ f.flen ≤ exSeq.length) ∧
    find_chloroplast_partition "ex" exSeq = .ok (some exParts) ∧
    ((exParts.map Part.name).Perm ["lsc", "ira", "ssc", "irb"] ∧
     (exParts.map Part.plen).sum = exSeq.length ∧
     exParts.Pairwise (fun a b => ∀ p, p < exSeq.length →
       ¬(inArcB exSeq.length a.start a.plen p = true ∧
         inArcB exSeq.length b.start b.plen p = true))) :=
  ⟨by decide, by rfl,
   C1_partition_tiles_circle "ex" exSeq exParts (by decide) (by rfl)⟩

/-- C8: when the builder returns a partition, its two gap-fill parts (third
and fourth entries, in the stable order produced by gap filling) are named
`lsc`/`ssc` by the rule `ssc_ind = int(len(n_parts[0]) > len(n_parts[1]))`:
the strictly longer first gap is `lsc`, otherwise (including the equal-length
tie) the second gap is `lsc`; consequently the part named `lsc` is always at
least as long as the part named `ssc`, and the tie case is deterministic. -/
theorem C8_longer_gap_named_lsc (seq_ident : String) (seq : Seq)
    (parts : List Part)
    (hres : find_chloroplast_partition seq_ident seq = .ok (some parts)) :
    ∃ ira irb g0 g1 : Part,
      parts = [ira, irb, g0, g1] ∧
      ira.name = "ira" ∧ irb.name = "irb" ∧
      (if g0.plen > g1.plen
       then g0.name = "lsc" ∧ g1.name = "ssc"
       else g0.name = "ssc" ∧ g1.name = "lsc") ∧
      (∀ pl ps : Part, pl ∈ parts → ps ∈ parts →
        pl.name = "lsc" → ps.name = "ssc" → ps.plen ≤ pl.plen) := by
  unfold find_chloroplast_partition at hres
  cases hirs : find_chloroplast_irs seq with
  | none => rw [hirs] at hres; simp at hres
  | some pr =>
    obtain ⟨ira, irb⟩ := pr
    rw [hirs] at hres
    dsimp only at hres
    match hg : gapsOf (covTwo seq.length ira.start ira.flen irb.start irb.flen)
        seq.length with
    | [] => rw [hg] at hres; simp at hres
    | [g0] => rw [hg] at hres; simp at hres
    | g0 :: g1 :: g2 :: rest => rw [hg] at hres; simp at hres
    | [(p1, n1), (p2, n2)] =>
      rw [hg] at hres
      dsimp only at hres
      split_ifs at hres with hcmp <;>
        simp only [Except.ok.injEq, Option.some.injEq] at hres <;> subst hres
      · refine ⟨_, _, _, _, rfl, rfl, rfl, ?_, ?_⟩
        · simp [hcmp]
        · intro pl ps hpl hps hnl hns
          simp only [List.mem_cons, List.not_mem_nil, or_false] at hpl hps
          rcases hpl with rfl | rfl | rfl | rfl <;>
            rcases hps with rfl | rfl | rfl | rfl <;>
            simp_all <;> omega
      · refine ⟨_, _, _, _, rfl, rfl, rfl, ?_, ?_⟩
        · simp [hcmp]
        · intro pl ps hpl hps hnl hns
          simp only [List.mem_cons, List.not_mem_nil, or_false] at hpl hps
          rcases hpl with rfl | rfl | rfl | rfl <;>
            rcases hps with rfl | rfl | rfl | rfl <;>
            simp_all <;> omega

/-- Witness for C8 on `exSeq`: the longer gap `[0,8)` is named `lsc`. -/
theorem C8_witness :
    find_chloroplast_partition "ex8" exSeq = .ok (some exParts) ∧
    ∃ ira irb g0 g1 : Part,
      exParts = [ira, irb, g0, g1] ∧
      ira.name = "ira" ∧ irb.name = "irb" ∧
      (if g0.plen > g1.plen
       then g0.name = "lsc" ∧ g1.name = "ssc"
       else g0.name = "ssc" ∧ g1.name = "lsc") ∧
      (∀ pl ps : Part, pl ∈ exParts → ps ∈ exParts →
        pl.name = "lsc" → ps.name = "ssc" → ps.plen ≤ pl.plen) :=
  ⟨by rfl, C8_longer_gap_named_lsc "ex8" exSeq exParts (by rfl)⟩

/-- C3: for `0 < L` and `0 ≤ x < L`, `seq_offset L x` returns `x` when
`x ≤ |x − L|` and `x − L` otherwise; the result `r` satisfies `2·|r| ≤ L`
(i.e. `|r| ≤ L/2`) and `r ≡ x (mod L)`. -/
theorem C3_seq_offset_minimal_residue (L x : Int) (hL : 0 < L)
    (hx0 : 0 ≤ x) (hxL : x < L) :
    seq_offset L x = (if x ≤ |x - L| then x else x - L) ∧
    2 * |seq_offset L x| ≤ L ∧
    seq_offset L x % L = x % L := by
  have habs : |x - L| = L - x := by
    rw [abs_of_nonpos (by omega)]; omega
  refine ⟨rfl, ?_, ?_⟩
  · unfold seq_offset
    simp only [habs]
    split_ifs with h
    · rw [abs_of_nonneg hx0]; omega
    · rw [abs_of_nonpos (by omega)]; omega
  · unfold seq_offset
    simp only [habs]
    split_ifs with h
    · rfl
    · rw [Int.sub_emod, Int.emod_self, sub_zero, Int.emod_emod_of_dvd _ dvd_rfl]

/-- Witness for C3 at `L = 10`, `x = 7`. -/
theorem C3_witness :
    (0 : Int) < 10 ∧ (0 : Int) ≤ 7 ∧ (7 : Int) < 10 ∧
    (seq_offset 10 7 = (if (7 : Int) ≤ |7 - 10| then 7 else 7 - 10) ∧
     2 * |seq_offset 10 7| ≤ 10 ∧
     seq_offset 10 7 % 10 = 7 % 10) :=
  ⟨by decide, by decide, by decide,
   C3_seq_offset_minimal_residue 10 7 (by decide) (by decide) (by decide)⟩

/-- C2: the partition builder returns `None` whenever the number of inverted
repeat_region features tied for maximum length differs from two (zero
features, one, or three or more), and it builds a partition only when that
number is exactly two. -/
theorem C2_partition_requires_two_tied_irs (seq : Seq) :
    ((maxTied seq).length ≠ 2 →
      ∀ seq_ident, find_chloroplast_partition seq_ident seq = .ok none) ∧
    (∀ seq_ident parts,
      find_chloroplast_partition seq_ident seq = .ok (some parts) →
      (maxTied seq).length = 2) := by
  have hirs : ∀ r, find_chloroplast_irs seq = some r → (maxTied seq).length = 2 := by
    intro r hr
    unfold find_chloroplast_irs at hr
    cases hrep : invRepeats seq with
    | nil => rw [hrep] at hr; simp at hr
    | cons a t =>
      rw [hrep] at hr
      match hmax : maxTied seq with
      | [] => rw [hmax] at hr; simp at hr
      | [x] => rw [hmax] at hr; simp at hr
      | [x, y] => simp [hmax]
      | x :: y :: z :: rest => rw [hmax] at hr; simp at hr
  have hnone : (maxTied seq).length ≠ 2 → find_chloroplast_irs seq = none := by
    intro h
    cases hx : find_chloroplast_irs seq with
    | none => rfl
    | some r => exact absurd (hirs r hx) h
  constructor
  · intro h seq_ident
    unfold find_chloroplast_partition
    rw [hnone h]
  · intro seq_ident parts hp
    cases hx : find_chloroplast_irs seq with
    | none =>
      unfold find_chloroplast_partition at hp
      rw [hx] at hp
      simp at hp
    | some r => exact hirs r hx

/-- Witness for C2: `exSeq3` has three inverted repeats tied for maximum
length, and the builder returns `None` on it. -/
theorem C2_witness :
    (maxTied exSeq3).length ≠ 2 ∧
    find_chloroplast_partition "ex3" exSeq3 = .ok none :=
  ⟨by decide, (C2_partition_requires_two_tied_irs exSeq3).1 (by decide) "ex3"⟩

/-- C4 fails as stated: on `exAlign` the nice tier takes the IRA upper bound
from the *first* `end2` match's end (300), not the second `end2` match's end
(800). -/
theorem C4_counterexample :
    get_nice_irs exAlign = some ((0, 300), (700, 1000)) ∧
    ∀ irb : Int × Int, get_nice_irs exAlign ≠ some ((0, 800), irb) := by
  refine ⟨by rfl, ?_⟩
  intro irb h
  rw [(by rfl : get_nice_irs exAlign = some ((0, 300), (700, 1000)))] at h
  simp at h

/-- C4 (amended): with exactly two matches for `end1` and two for `end2`
(each list ordered by start coordinate), the nice tier yields IRA bounds
from the first `end1` match's start to the *first* `end2` match's end, and
IRB bounds from the second `end2` match's start to the second `end1` match's
end. -/
theorem C4_nice_tier_bounds (a : Alignment) (m1 m2 m3 m4 : AMatch)
    (h1 : a.end1 = [m1, m2]) (h2 : a.end2 = [m3, m4]) :
    get_nice_irs a
      = some ((m1.sequence_interval.1, m3.sequence_interval.2),
              (m4.sequence_interval.1, m2.sequence_interval.2)) := by
  unfold get_nice_irs
  rw [h1, h2]

/-- Witness for the amended C4 at `exAlign`. -/
theorem C4_witness :
    exAlign.end1 = [⟨(0, 100), true⟩, ⟨(900, 1000), true⟩] ∧
    exAlign.end2 = [⟨(200, 300), true⟩, ⟨(700, 800), true⟩] ∧
    get_nice_irs exAlign = some ((0, 300), (700, 1000)) :=
  ⟨rfl, rfl, C4_nice_tier_bounds exAlign _ _ _ _ rfl rfl⟩

/-- C10: whenever the 2+1 or the 1+2 partial tier yields a pair of
intervals, the two intervals have exactly equal (signed) lengths: the
missing boundary is extrapolated, in either strand direction, so that the
IRB span length equals the IRA span length. -/
theorem C10_partial_tiers_equal_lengths (a : Alignment)
    (r : (Int × Int) × (Int × Int)) :
    (get_2_1_irs a = some r → r.1.2 - r.1.1 = r.2.2 - r.2.1) ∧
    (get_1_2_irs a = some r → r.1.2 - r.1.1 = r.2.2 - r.2.1) := by
  constructor
  · intro h
    unfold get_2_1_irs at h
    split at h
    · split_ifs at h <;>
        (simp only [Option.some.injEq] at h; subst h; dsimp only; omega)
    · simp at h
  · intro h
    unfold get_1_2_irs at h
    split at h
    · split_ifs at h <;>
        (simp only [Option.some.injEq] at h; subst h; dsimp only; omega)
    · simp at h

/-- Witness for C10 at `exAlign21` (2+1 tier, positive strand). -/
theorem C10_witness :
    get_2_1_irs exAlign21 = some ((0, 500), (500, 1000)) ∧
    ((500 : Int) - 0 = 1000 - 500) :=
  ⟨by rfl,
   (C10_partial_tiers_equal_lengths exAlign21 ((0, 500), (500, 1000))).1 (by rfl)⟩

theorem run_align_loop_first_nice (c : Cand) (post : List Cand)
    (x : (Int × Int) × (Int × Int)) (hx : get_nice_irs c.align = some x) :
    ∀ (pre : List Cand) (acc : List Alignment) (last : Option String),
      (∀ d ∈ pre, get_nice_irs d.align = none) →
      run_align_loop true (pre ++ c :: post) acc last
        = (some (x, c.ident), (pre ++ [c]).map Cand.ident) := by
  intro pre
  induction pre with
  | nil =>
    intro acc last _
    simp only [List.nil_append, List.singleton_append, List.map_cons, List.map_nil]
    unfold run_align_loop
    simp [hx]
  | cons d t ih =>
    intro acc last hpre
    have hd : get_nice_irs d.align = none := hpre d (by simp)
    simp only [List.cons_append]
    unfold run_align_loop
    simp only [if_true, hd]
    rw [ih (acc ++ [d.align]) (some d.ident) (fun e he => hpre e (by simp [he]))]
    simp

/-- C6: in first-nice mode, as soon as some candidate (taken in candidate
order) yields a nice-tier result, `_run_align` records that result with that
candidate as donor and returns without running an alignment against any
later candidate: the examined candidates are exactly the prefix up to and
including the first nice one. -/
theorem C6_first_nice_short_circuits (pre : List Cand) (c : Cand)
    (post : List Cand) (x : (Int × Int) × (Int × Int))
    (hpre : ∀ d ∈ pre, get_nice_irs d.align = none)
    (hx : get_nice_irs c.align = some x) :
    run_align (pre ++ c :: post) true = some (x, c.ident) ∧
    run_align_examined (pre ++ c :: post) true = (pre ++ [c]).map Cand.ident := by
  have h := run_align_loop_first_nice c post x hx pre [] none hpre
  unfold run_align run_align_examined
  rw [h]
  exact ⟨rfl, rfl⟩

/-- Witness for C6: candidate `B` is the first nice one; `C` is never
examined. -/
theorem C6_witness :
    (∀ d ∈ [exCandA], get_nice_irs d.align = none) ∧
    get_nice_irs exCandB.align = some ((10, 40), (60, 90)) ∧
    run_align [exCandA, exCandB, exCandC] true
      = some (((10, 40), (60, 90)), "B") ∧
    run_align_examined [exCandA, exCandB, exCandC] true = ["A", "B"] := by
  have h := C6_first_nice_short_circuits [exCandA] exCandB [exCandC]
    ((10, 40), (60, 90)) (by intro d hd; fin_cases hd <;> rfl) (by rfl)
  exact ⟨by intro d hd; fin_cases hd <;> rfl, by rfl, h.1, h.2⟩

/-- C5 is violated by the code in the best-overall path: at a two-candidate
input where only the first candidate (`D1`) produces any tier evidence, the
recorded donor identifier is the *last-iterated* candidate (`D2`), because
the final recording reuses the leaked loop variable `d`. -/
theorem C5_donor_attribution_bug :
    run_align [exCandD1, exCandD2] false
      = some (((0, 500), (500, 1000)), "D2") ∧
    get_2_1_irs exCandD1.align = some ((0, 500), (500, 1000)) ∧
    get_nice_irs exCandD2.align = none ∧
    get_2_1_irs exCandD2.align = none ∧
    get_1_2_irs exCandD2.align = none ∧
    exCandD1.ident ≠ exCandD2.ident :=
  ⟨by rfl, by rfl, by rfl, by rfl, by rfl, by decide⟩

theorem foldl_best_some (l : List (Option ((Int × Int) × (Int × Int)))) :
    ∀ v : (Int × Int) × (Int × Int),
      ∃ w, l.foldl bestStep (some (irsMeasure v), some v)
            = (some (irsMeasure w), some w) ∧
        (w = v ∨ some w ∈ l) ∧ irsMeasure v ≤ irsMeasure w ∧
        ∀ u, some u ∈ l → irsMeasure u ≤ irsMeasure w := by
  induction l with
  | nil => intro v; exact ⟨v, rfl, Or.inl rfl, le_refl _, by simp⟩
  | cons o t ih =>
    intro v
    cases o with
    | none =>
      obtain ⟨w, hw, hmem, hle, hmax⟩ := ih v
      refine ⟨w, ?_, ?_, hle, ?_⟩
      · simpa [bestStep] using hw
      · rcases hmem with h | h
        · exact Or.inl h
        · exact Or.inr (List.mem_cons_of_mem _ h)
      · intro u hu
        rcases List.mem_cons.mp hu with h | h
        · exact absurd h (by simp)
        · exact hmax u h
    | some u =>
      by_cases hgt : irsMeasure u > irsMeasure v
      · obtain ⟨w, hw, hmem, hle, hmax⟩ := ih u
        refine ⟨w, ?_, ?_, le_trans (le_of_lt hgt) hle, ?_⟩
        · simp only [List.foldl_cons]
          rw [(by simp [bestStep, if_pos hgt] :
            bestStep (some (irsMeasure v), some v) (some u)
              = (some (irsMeasure u), some u))]
          exact hw
        · rcases hmem with h | h
          · exact Or.inr (by simp [h])
          · exact Or.inr (List.mem_cons_of_mem _ h)
        · intro u' hu'
          rcases List.mem_cons.mp hu' with h | h
          · obtain rfl : u = u' := by simpa using h.symm
            exact hle
          · exact hmax u' h
      · push_neg at hgt
        obtain ⟨w, hw, hmem, hle, hmax⟩ := ih v
        refine ⟨w, ?_, ?_, hle, ?_⟩
        · simp only [List.foldl_cons]
          rw [(by simp [bestStep, if_neg (not_lt.mpr hgt)] :
            bestStep (some (irsMeasure v), some v) (some u)
              = (some (irsMeasure v), some v))]
          exact hw
        · rcases hmem with h | h
          · exact Or.inl h
          · exact Or.inr (List.mem_cons_of_mem _ h)
        · intro u' hu'
          rcases List.mem_cons.mp hu' with h | h
          · obtain rfl : u = u' := by simpa using h.symm
            exact le_trans hgt hle
          · exact hmax u' h

theorem get_the_best_ir_spec (l : List (Option ((Int × Int) × (Int × Int)))) :
    (get_the_best_ir l = none → ∀ o ∈ l, o = none) ∧
    (∀ r, get_the_best_ir l = some r →
      some r ∈ l ∧ ∀ v, some v ∈ l → irsMeasure v ≤ irsMeasure r) := by
  cases l with
  | nil =>
    constructor
    · intro _ o ho; simp at ho
    · intro r hr; simp [get_the_best_ir] at hr
  | cons o t =>
    cases o with
    | none =>
      have hfold : get_the_best_ir (none :: t) = get_the_best_ir t := by
        simp [get_the_best_ir, bestStep]
      constructor
      · intro h o' ho'
        rcases List.mem_cons.mp ho' with h' | h'
        · exact h'
        · rw [hfold] at h
          exact (get_the_best_ir_spec t).1 h o' h'
      · intro r hr
        rw [hfold] at hr
        obtain ⟨hmem, hmax⟩ := (get_the_best_ir_spec t).2 r hr
        refine ⟨List.mem_cons_of_mem _ hmem, ?_⟩
        intro v hv
        rcases List.mem_cons.mp hv with h | h
        · exact absurd h (by simp)
        · exact hmax v h
    | some u =>
      obtain ⟨w, hw, hmem, hle, hmax⟩ := foldl_best_some t u
      have hfold : get_the_best_ir (some u :: t) = some w := by
        simp only [get_the_best_ir, List.foldl_cons]
        show (List.foldl bestStep (some (irsMeasure u), some u) t).2 = some w
        rw [hw]
      constructor
      · intro hnone; rw [hfold] at hnone; simp at hnone
      · intro r hr
        rw [hfold] at hr
        obtain rfl : w = r := by simpa using hr
        constructor
        · rcases hmem with h | h
          · simp [h]
          · exact List.mem_cons_of_mem _ h
        · intro v hv
          rcases List.mem_cons.mp hv with h | h
          · obtain rfl : u = v := by simpa using h.symm
            exact hle
          · exact hmax v h
  termination_by l.length
  decreasing_by all_goals simp

/-- C7: in best-overall mode, the tiers are tried nice, then 2+1, then 1+2
across the whole candidate set, stopping at the first tier that yields any
result (so a 2+1/1+2 result is never returned when some candidate admits a
nice result), and within the chosen tier a result of maximal `_l` span
measure is selected. -/
theorem C7_best_overall_tier_policy (aligns : List Alignment) :
    ((∃ a ∈ aligns, (get_nice_irs a).isSome) →
      ∃ a ∈ aligns, ∃ r, get_nice_irs a = some r ∧
        get_the_best_irs aligns = some r ∧
        ∀ b ∈ aligns, ∀ v, get_nice_irs b = some v →
          irsMeasure v ≤ irsMeasure r) ∧
    ((∀ a ∈ aligns, get_nice_irs a = none) →
      (∃ a ∈ aligns, (get_2_1_irs a).isSome) →
      ∃ a ∈ aligns, ∃ r, get_2_1_irs a = some r ∧
        get_the_best_irs aligns = some r ∧
        ∀ b ∈ aligns, ∀ v, get_2_1_irs b = some v →
          irsMeasure v ≤ irsMeasure r) ∧
    ((∀ a ∈ aligns, get_nice_irs a = none) →
      (∀ a ∈ aligns, get_2_1_irs a = none) →
      (∃ a ∈ aligns, (get_1_2_irs a).isSome) →
      ∃ a ∈ aligns, ∃ r, get_1_2_irs a = some r ∧
        get_the_best_irs aligns = some r ∧
        ∀ b ∈ aligns, ∀ v, get_1_2_irs b = some v →
          irsMeasure v ≤ irsMeasure r) ∧
    ((∀ a ∈ aligns,
        get_nice_irs a = none ∧ get_2_1_irs a = none ∧ get_1_2_irs a = none) →
      get_the_best_irs aligns = none) := by
  have tier : ∀ f : Alignment → Option ((Int × Int) × (Int × Int)),
      (∃ a ∈ aligns, (f a).isSome) →
      ∃ r, get_the_best_ir (aligns.map f) = some r ∧
        (∃ a ∈ aligns, f a = some r) ∧
        ∀ b ∈ aligns, ∀ v, f b = some v → irsMeasure v ≤ irsMeasure r := by
    rintro f ⟨a, ha, hsome⟩
    cases hb : get_the_best_ir (aligns.map f) with
    | none =>
      have h := (get_the_best_ir_spec _).1 hb (f a) (List.mem_map_of_mem f ha)
      rw [h] at hsome; simp at hsome
    | some r =>
      obtain ⟨hmem, hmax⟩ := (get_the_best_ir_spec _).2 r hb
      obtain ⟨b, hbmem, hfb⟩ := List.mem_map.mp hmem
      exact ⟨r, rfl, ⟨b, hbmem, hfb⟩,
        fun b' hb' v hv => hmax v (List.mem_map.mpr ⟨b', hb', hv⟩)⟩
  have tier_none : ∀ f : Alignment → Option ((Int × Int) × (Int × Int)),
      (∀ a ∈ aligns, f a = none) →
      get_the_best_ir (aligns.map f) = none := by
    intro f hall
    cases hb : get_the_best_ir (aligns.map f) with
    | none => rfl
    | some r =>
      obtain ⟨hmem, _⟩ := (get_the_best_ir_spec _).2 r hb
      obtain ⟨b, hbmem, hfb⟩ := List.mem_map.mp hmem
      rw [hall b hbmem] at hfb
      exact absurd hfb (by simp)
  refine ⟨?_, ?_, ?_, ?_⟩
  · intro hex
    obtain ⟨r, hbest, ⟨a, ha, hfa⟩, hmax⟩ := tier get_nice_irs hex
    refine ⟨a, ha, r, hfa, ?_, hmax⟩
    unfold get_the_best_irs
    rw [hbest]
  · intro hnone hex
    obtain ⟨r, hbest, ⟨a, ha, hfa⟩, hmax⟩ := tier get_2_1_irs hex
    refine ⟨a, ha, r, hfa, ?_, hmax⟩
    unfold get_the_best_irs
    rw [tier_none get_nice_irs hnone, hbest]
  · intro hnone1 hnone2 hex
    obtain ⟨r, hbest, ⟨a, ha, hfa⟩, hmax⟩ := tier get_1_2_irs hex
    refine ⟨a, ha, r, hfa, ?_, hmax⟩
    unfold get_the_best_irs
    rw [tier_none get_nice_irs hnone1, tier_none get_2_1_irs hnone2, hbest]
  · intro hall
    unfold get_the_best_irs
    rw [tier_none get_nice_irs (fun a ha => (hall a ha).1),
        tier_none get_2_1_irs (fun a ha => (hall a ha).2.1),
        tier_none get_1_2_irs (fun a ha => (hall a ha).2.2)]

/-- Witness for C7: with one matchless alignment and one nice alignment, the
nice result is returned. -/
theorem C7_witness :
    (∃ a ∈ [exAlignNone, exAlignB], (get_nice_irs a).isSome) ∧
    (∃ a ∈ [exAlignNone, exAlignB], ∃ r, get_nice_irs a = some r ∧
      get_the_best_irs [exAlignNone, exAlignB] = some r ∧
      ∀ b ∈ [exAlignNone, exAlignB], ∀ v, get_nice_irs b = some v →
        irsMeasure v ≤ irsMeasure r) :=
  ⟨⟨exAlignB, by simp, by rfl⟩,
   (C7_best_overall_tier_policy [exAlignNone, exAlignB]).1
     ⟨exAlignB, by simp, by rfl⟩⟩

/-- C9: the orientation checker returns `lsc = true` iff the summed strand
of the `rpl`/`rps` genes bucketed into the `lsc` part is `≤ 0`, `ssc = true`
iff the summed strand of all genes in the `ssc` part is `≤ 0`, and
`ira = true` iff the summed strand of the `rrn` genes in the `ira` part is
`≥ 0`; in particular, when the `ira` part holds no `rrn` gene the sum is
exactly zero and the flag is `true` (a zero sum counts as conforming). -/
theorem C9_orientation_flags (L : Nat) (parts : List Part)
    (genes : List GeneF) :
    ((chloroplast_parts_orientation L parts genes).lsc = true ↔
      lsc_count L parts genes ≤ 0) ∧
    ((chloroplast_parts_orientation L parts genes).ssc = true ↔
      ssc_count L parts genes ≤ 0) ∧
    ((chloroplast_parts_orientation L parts genes).ira = true ↔
      0 ≤ ira_count L parts genes) ∧
    ((∀ g ∈ genes_in_part L parts "ira" genes, nameHas g.name "rrn" = false) →
      ira_count L parts genes = 0 ∧
      (chloroplast_parts_orientation L parts genes).ira = true) := by
  refine ⟨by simp [chloroplast_parts_orientation],
          by simp [chloroplast_parts_orientation],
          by simp [chloroplast_parts_orientation, ge_iff_le], ?_⟩
  intro h
  have hz : ira_count L parts genes = 0 := by
    unfold ira_count
    apply List.sum_eq_zero
    intro x hx
    obtain ⟨g, hg, rfl⟩ := List.mem_map.mp hx
    rw [h g hg]
    simp
  exact ⟨hz, by simp [chloroplast_parts_orientation, hz]⟩

/-- Witness for C9 on `exParts`/`exGenes`: no `rrn` gene falls in `ira`, so
the `ira` flag is `true`. -/
theorem C9_witness :
    (∀ g ∈ genes_in_part 24 exParts "ira" exGenes,
      nameHas g.name "rrn" = false) ∧
    (ira_count 24 exParts exGenes = 0 ∧
     (chloroplast_parts_orientation 24 exParts exGenes).ira = true) :=
  ⟨by decide, (C9_orientation_flags 24 exParts exGenes).2.2.2 (by decide)⟩

end ZCI
